import Mathlib

/-!
Verification of the multi-session realtime synchronization engine of the
AVChat client against its specification.

The definitions below are shallow embeddings of the TypeScript source:

* `deduplicateMessages` embeds the duplicate-id merge primitive that appears
  twice in the source, once in `ChatInterface.tsx` (`deduplicateMessages`,
  built on a JS `Map` that preserves insertion order and updates values in
  place) and once in `ChatMessageDisplay` (`PureMessageDisplay`, built on an
  accumulator array with `findIndex` and in-place replacement).  Both walk
  the input left to right, insert a first occurrence at the end, and replace
  the stored record in place when the replacement condition holds; a JS
  `Map` whose keys are exactly the stored values id field is observationally
  the list of its values, so one Lean function embeds both.
* `handleMessagesUpdated` embeds the durable-store reconciliation handler of
  `ChatInterface.tsx` (the `messages_updated` listener), returning the new
  message list together with the flag saying whether `setMessages` was
  invoked (the "thread updated" emission).
* `handleStreamingBroadcast` embeds the ephemeral streaming-broadcast
  handler of `ChatInterface.tsx`.
* `messagesEventAction`, `summariesEventAction`, `subscriberDispatch` and
  `applyRealtime` embed the event dispatch of `appwriteRealtime.ts`; the
  `eventType` field stands for `response.events[0]`, the only element the
  source ever reads, and `payload : Option P` stands for the optional
  chaining `response.payload?`.
* `subscribeKind` / `subscribeToAll` embed the subscription registry of
  `AppwriteRealtime`; `nextHandle` counts how many underlying
  `client.subscribe` calls were ever made.
-/

/-- A chat message as the reconciliation engine sees it: the fields of the
UI message objects that the handlers under verification actually read. -/
structure Msg where
  id : String
  role : String
  content : String
  createdAt : Nat
  imgurl : Option String
  isImageGenerationLoading : Bool
deriving DecidableEq, Repr

/-- Substring containment on strings, the embedding of JS
`String.prototype.includes`. -/
def strContainsSubstr (s pat : String) : Bool :=
  s.data.tails.any (fun t => pat.data.isPrefixOf t)

/-- Fold that keeps the incoming record exactly when its content length is
greater than or equal to the kept one: the per-id merge the deduplication
primitive performs along the occurrence list of one id. -/
def lastMax (a : Msg) : List Msg → Msg
  | [] => a
  | b :: t => lastMax (if a.content.length ≤ b.content.length then b else a) t

/-- `acc[existingIndex] = current` (equally, `Map.set` on a present key):
replace the first stored record carrying the id of `m` by `m`, keeping its
position. -/
def replaceById (m : Msg) : List Msg → List Msg
  | [] => []
  | h :: t => if h.id == m.id then m :: t else h :: replaceById m t

/-- `messages.findIndex(x => x.id === i)` over the original input list.  JS
returns `-1` when the id is absent; the comparisons below only evaluate this
for ids of records already stored, which always occur in `orig`, where both
semantics agree. -/
def origFirstIdx (orig : List Msg) (i : String) : Nat :=
  orig.findIdx (fun m => m.id == i)

/-- One step of the deduplication fold: the body of the `forEach` in
`deduplicateMessages` and of the `reduce` in `PureMessageDisplay`.  A new id
is appended; a duplicate replaces the stored record when its content is
strictly longer, or of equal length with the current index past the first
occurrence of the id in the input. -/
def dedupInsert (orig : List Msg) (idx : Nat) (message : Msg) (acc : List Msg) : List Msg :=
  match acc.find? (fun m => m.id == message.id) with
  | none => acc ++ [message]
  | some existing =>
    if message.content.length > existing.content.length
        || (message.content.length == existing.content.length
            && decide (origFirstIdx orig existing.id < idx)) then
      replaceById message acc
    else
      acc

/-- The indexed walk of the input list. -/
def dedupGo (orig : List Msg) : List Msg → Nat → List Msg → List Msg
  | acc, _, [] => acc
  | acc, idx, message :: rest => dedupGo orig (dedupInsert orig idx message acc) (idx + 1) rest

/-- The deduplication / merge primitive (`deduplicateMessages` in
`ChatInterface.tsx`, the `reduce` in `PureMessageDisplay`). -/
def deduplicateMessages (msgs : List Msg) : List Msg :=
  dedupGo msgs [] 0 msgs

/-- What the primitive should keep for one id, computed from the occurrence
list of that id: nothing when the id never occurs, otherwise the fold of
`lastMax` along the occurrences. -/
def keptFor (occs : List Msg) : List Msg :=
  match occs with
  | [] => []
  | h :: t => [lastMax h t]

example : deduplicateMessages
    [⟨"a", "user", "hi", 0, none, false⟩, ⟨"a", "user", "hello", 1, none, false⟩] =
    [⟨"a", "user", "hello", 1, none, false⟩] := by decide

example : deduplicateMessages
    [⟨"a", "user", "hello", 0, none, false⟩, ⟨"a", "user", "hi", 1, none, false⟩] =
    [⟨"a", "user", "hello", 0, none, false⟩] := by decide

example : deduplicateMessages
    [⟨"a", "user", "aa", 0, none, false⟩, ⟨"a", "user", "bb", 1, none, false⟩] =
    [⟨"a", "user", "bb", 1, none, false⟩] := by decide

/-! ### Properties of the per-id merge fold -/

theorem lastMax_mem (t : List Msg) (a : Msg) : lastMax a t ∈ a :: t := by
  induction t generalizing a with
  | nil => simp [lastMax]
  | cons b t ih =>
    simp only [lastMax]
    by_cases hc : a.content.length ≤ b.content.length
    · simp only [if_pos hc]
      rcases List.mem_cons.mp (ih b) with h1 | h1
      · simp [h1]
      · simp [List.mem_cons, Or.inr (Or.inr h1)]
    · simp only [if_neg hc]
      rcases List.mem_cons.mp (ih a) with h1 | h1
      · simp [h1]
      · simp [List.mem_cons, Or.inr (Or.inr h1)]

theorem lastMax_le (t : List Msg) (a : Msg) :
    ∀ x ∈ a :: t, x.content.length ≤ (lastMax a t).content.length := by
  induction t generalizing a with
  | nil =>
    intro x hx
    rcases List.mem_cons.mp hx with h1 | h1
    · subst h1; simp [lastMax]
    · simp at h1
  | cons b t ih =>
    intro x hx
    simp only [lastMax]
    by_cases hc : a.content.length ≤ b.content.length
    · simp only [if_pos hc]
      rcases List.mem_cons.mp hx with h1 | h1
      · subst h1
        exact le_trans hc (ih b b (List.mem_cons_self _ _))
      · exact ih b x h1
    · simp only [if_neg hc]
      rcases List.mem_cons.mp hx with h1 | h1
      · subst h1; exact ih x x (List.mem_cons_self _ _)
      · rcases List.mem_cons.mp h1 with h2 | h2
        · subst h2
          have hba : x.content.length ≤ a.content.length := le_of_lt (lt_of_not_le hc)
          exact le_trans hba (ih a a (List.mem_cons_self _ _))
        · exact ih a x (List.mem_cons_of_mem _ h2)

theorem lastMax_append (t : List Msg) (a m : Msg) :
    lastMax a (t ++ [m]) =
      if (lastMax a t).content.length ≤ m.content.length then m else lastMax a t := by
  induction t generalizing a with
  | nil => simp [lastMax]
  | cons b t ih =>
    simp only [List.cons_append, lastMax]
    exact ih _

theorem keptFor_eq_nil_iff (occs : List Msg) : keptFor occs = [] ↔ occs = [] := by
  cases occs <;> simp [keptFor]

/-! ### Generic list helper lemmas -/

theorem filter_singleton_find? {α : Type} {p : α → Bool} :
    ∀ {l : List α} {x : α}, l.filter p = [x] → l.find? p = some x := by
  intro l
  induction l with
  | nil => intro x h; simp at h
  | cons a t ih =>
    intro x h
    by_cases hp : p a
    · rw [List.filter_cons_of_pos hp] at h
      injection h with h1 h2
      subst h1
      exact List.find?_cons_of_pos _ hp
    · rw [List.filter_cons_of_neg (by simpa using hp)] at h
      rw [List.find?_cons_of_neg _ (by simpa using hp)]
      exact ih h

theorem findIdx_append_lt {α : Type} :
    ∀ (pre rest : List α) (p : α → Bool), (∃ x ∈ pre, p x = true) →
      (pre ++ rest).findIdx p < pre.length := by
  intro pre
  induction pre with
  | nil => intro rest p h; simp at h
  | cons a t ih =>
    intro rest p hex
    by_cases hp : p a
    · simp [List.findIdx_cons, hp]
    · rcases hex with ⟨x, hx, hpx⟩
      rcases List.mem_cons.mp hx with h1 | h1
      · subst h1; simp [hpx] at hp
      · have := ih rest p ⟨x, h1, hpx⟩
        simp only [List.cons_append, List.findIdx_cons, List.length_cons]
        simp only [hp]
        simp only [Bool.eq_false_iff, ne_eq] at hp
        simp [hp]
        omega

theorem replaceById_filter_ne (m : Msg) (j : String) (hne : (m.id == j) = false) :
    ∀ l : List Msg, (replaceById m l).filter (fun x => x.id == j) = l.filter (fun x => x.id == j) := by
  intro l
  induction l with
  | nil => rfl
  | cons a t ih =>
    simp only [replaceById]
    by_cases ha : (a.id == m.id) = true
    · simp only [ha, if_pos]
      have haj : (a.id == j) = false := by
        rw [beq_iff_eq.mp ha]; exact hne
      simp [List.filter_cons, haj, hne]
    · simp only [Bool.not_eq_true] at ha
      simp only [ha, Bool.false_eq_true, if_false]
      simp [List.filter_cons, ih]

theorem replaceById_filter_eq (m : Msg) :
    ∀ (l : List Msg) (x : Msg), l.filter (fun y => y.id == m.id) = [x] →
      (replaceById m l).filter (fun y => y.id == m.id) = [m] := by
  intro l
  induction l with
  | nil => intro x h; simp at h
  | cons a t ih =>
    intro x h
    by_cases ha : (a.id == m.id) = true
    · have hc : List.filter (fun y => y.id == m.id) (a :: t)
          = a :: List.filter (fun y => y.id == m.id) t := by
        simp [List.filter_cons, ha]
      rw [hc] at h
      injection h with h1 h2
      have hrepl : replaceById m (a :: t) = m :: t := by simp [replaceById, ha]
      have hm : List.filter (fun y => y.id == m.id) (m :: t)
          = m :: List.filter (fun y => y.id == m.id) t := by
        simp [List.filter_cons]
      rw [hrepl, hm, h2]
    · have ha' : (a.id == m.id) = false := by simpa using ha
      have hc : List.filter (fun y => y.id == m.id) (a :: t)
          = List.filter (fun y => y.id == m.id) t := by
        simp [List.filter_cons, ha']
      rw [hc] at h
      have hrepl : replaceById m (a :: t) = a :: replaceById m t := by
        simp [replaceById, ha']
      have hc2 : List.filter (fun y => y.id == m.id) (a :: replaceById m t)
          = List.filter (fun y => y.id == m.id) (replaceById m t) := by
        simp [List.filter_cons, ha']
      rw [hrepl, hc2]
      exact ih x h

/-! ### The per-id characterization of the deduplication fold -/

theorem dedupInsert_spec (orig pre rest : List Msg) (message : Msg) (acc : List Msg)
    (horig : orig = pre ++ message :: rest)
    (hinv : ∀ j, acc.filter (fun m => m.id == j) = keptFor (pre.filter (fun m => m.id == j))) :
    ∀ j, (dedupInsert orig pre.length message acc).filter (fun m => m.id == j)
      = keptFor ((pre ++ [message]).filter (fun m => m.id == j)) := by
  intro j
  cases hfind : acc.find? (fun m => m.id == message.id) with
  | none =>
    have hfilter : acc.filter (fun m => m.id == message.id) = [] := by
      rw [List.filter_eq_nil_iff]
      intro x hx
      simpa using List.find?_eq_none.mp hfind x hx
    have hpre : pre.filter (fun m => m.id == message.id) = [] := by
      have h1 := hinv message.id
      rw [hfilter] at h1
      exact (keptFor_eq_nil_iff _).mp h1.symm
    simp only [dedupInsert, hfind]
    rw [List.filter_append, List.filter_append]
    by_cases hj : (message.id == j) = true
    · have hjeq : message.id = j := beq_iff_eq.mp hj
      subst hjeq
      rw [hinv message.id, hpre]
      simp [keptFor, lastMax, List.filter_cons]
    · have hj' : (message.id == j) = false := by simpa using hj
      have hone : List.filter (fun m => m.id == j) [message] = [] := by
        simp [List.filter_cons, hj']
      rw [hone]
      simp only [List.append_nil]
      exact hinv j
  | some existing =>
    have hnonnil : acc.filter (fun m => m.id == message.id) ≠ [] := by
      intro hnil
      have hall := List.filter_eq_nil_iff.mp hnil
      have hmem := List.mem_of_find?_eq_some hfind
      have hp := List.find?_some hfind
      exact absurd hp (by simpa using hall existing hmem)
    obtain ⟨h1, t1, hocc⟩ : ∃ h1 t1, pre.filter (fun m => m.id == message.id) = h1 :: t1 := by
      cases hc : pre.filter (fun m => m.id == message.id) with
      | nil =>
        exfalso
        apply hnonnil
        rw [hinv message.id, hc]
        rfl
      | cons h1 t1 => exact ⟨h1, t1, rfl⟩
    have haccf : acc.filter (fun m => m.id == message.id) = [lastMax h1 t1] := by
      rw [hinv message.id, hocc]
      rfl
    have hex : existing = lastMax h1 t1 := by
      have h2 := filter_singleton_find? haccf
      rw [hfind] at h2
      exact Option.some.inj h2
    have hexmem : lastMax h1 t1 ∈ pre.filter (fun m => m.id == message.id) := by
      rw [hocc]
      exact lastMax_mem t1 h1
    have hexid : existing.id = message.id := by
      rw [hex]
      exact beq_iff_eq.mp (List.mem_filter.mp hexmem).2
    have hidxp : origFirstIdx orig existing.id < pre.length := by
      unfold origFirstIdx
      rw [horig, hexid]
      apply findIdx_append_lt
      have hh1 : h1 ∈ pre.filter (fun m => m.id == message.id) := by
        rw [hocc]
        exact List.mem_cons_self _ _
      exact ⟨h1, (List.mem_filter.mp hh1).1, (List.mem_filter.mp hh1).2⟩
    have hidx : decide (origFirstIdx orig existing.id < pre.length) = true := decide_eq_true hidxp
    simp only [dedupInsert, hfind, hidx, Bool.and_true]
    by_cases hle : existing.content.length ≤ message.content.length
    · have hcond : (decide (message.content.length > existing.content.length)
          || (message.content.length == existing.content.length)) = true := by
        rcases Nat.lt_or_ge existing.content.length message.content.length with hlt | hge
        · simp [Nat.lt_iff_add_one_le] at hlt ⊢
          omega
        · have heq : message.content.length = existing.content.length := Nat.le_antisymm hge hle
          simp [heq]
      rw [hcond]
      simp only [if_true]
      by_cases hj : (message.id == j) = true
      · have hjeq : message.id = j := beq_iff_eq.mp hj
        subst hjeq
        rw [replaceById_filter_eq message acc (lastMax h1 t1) haccf]
        rw [List.filter_append, hocc]
        have hone : List.filter (fun m => m.id == message.id) [message] = [message] := by
          simp [List.filter_cons]
        rw [hone]
        show [message] = keptFor (h1 :: (t1 ++ [message]))
        simp only [keptFor]
        rw [lastMax_append, ← hex]
        simp [hle]
      · have hj' : (message.id == j) = false := by simpa using hj
        rw [replaceById_filter_ne message j hj' acc, hinv j]
        rw [List.filter_append]
        have hone : List.filter (fun m => m.id == j) [message] = [] := by
          simp [List.filter_cons, hj']
        rw [hone]
        simp
    · have hcond : (decide (message.content.length > existing.content.length)
          || (message.content.length == existing.content.length)) = false := by
        have hlt : message.content.length < existing.content.length := Nat.lt_of_not_le hle
        have hne : message.content.length ≠ existing.content.length := Nat.ne_of_lt hlt
        simp [Nat.not_lt_of_lt hlt, hne]
      rw [hcond]
      simp only [Bool.false_eq_true, if_false]
      by_cases hj : (message.id == j) = true
      · have hjeq : message.id = j := beq_iff_eq.mp hj
        subst hjeq
        rw [haccf, List.filter_append, hocc]
        have hone : List.filter (fun m => m.id == message.id) [message] = [message] := by
          simp [List.filter_cons]
        rw [hone]
        show [lastMax h1 t1] = keptFor (h1 :: (t1 ++ [message]))
        simp only [keptFor]
        rw [lastMax_append, ← hex]
        simp [hle]
      · have hj' : (message.id == j) = false := by simpa using hj
        rw [hinv j, List.filter_append]
        have hone : List.filter (fun m => m.id == j) [message] = [] := by
          simp [List.filter_cons, hj']
        rw [hone]
        simp

theorem dedupGo_spec (orig : List Msg) :
    ∀ (rest pre acc : List Msg), orig = pre ++ rest →
      (∀ j, acc.filter (fun m => m.id == j) = keptFor (pre.filter (fun m => m.id == j))) →
      ∀ i, (dedupGo orig acc pre.length rest).filter (fun m => m.id == i)
        = keptFor (orig.filter (fun m => m.id == i)) := by
  intro rest
  induction rest with
  | nil =>
    intro pre acc horig hinv i
    simp only [dedupGo]
    rw [horig, List.append_nil]
    exact hinv i
  | cons message rest ih =>
    intro pre acc horig hinv i
    simp only [dedupGo]
    have hstep := dedupInsert_spec orig pre rest message acc horig hinv
    have horig' : orig = (pre ++ [message]) ++ rest := by
      rw [horig]
      simp
    have hlen : pre.length + 1 = (pre ++ [message]).length := by simp
    rw [hlen]
    exact ih (pre ++ [message]) _ horig' hstep i

/-- Per-id characterization of `deduplicateMessages`: for each id the output
holds exactly the `lastMax` fold of the occurrence list of that id. -/
theorem dedup_filter (msgs : List Msg) (i : String) :
    (deduplicateMessages msgs).filter (fun m => m.id == i)
      = keptFor (msgs.filter (fun m => m.id == i)) := by
  have h := dedupGo_spec msgs msgs [] [] (by simp) (fun j => by simp [keptFor]) i
  simpa [deduplicateMessages] using h

/-! ### Consequences: unique ids, membership preservation, identity on clean input -/

theorem mem_map_id_iff_filter (l : List Msg) (i : String) :
    i ∈ l.map (fun m => m.id) ↔ l.filter (fun m => m.id == i) ≠ [] := by
  constructor
  · intro h
    rcases List.mem_map.mp h with ⟨m, hm, hid⟩
    intro hnil
    have := List.filter_eq_nil_iff.mp hnil m hm
    simp [hid] at this
  · intro h
    cases hc : l.filter (fun m => m.id == i) with
    | nil => exact absurd hc h
    | cons x t =>
      have hx : x ∈ l.filter (fun m => m.id == i) := by
        rw [hc]
        exact List.mem_cons_self _ _
      rcases List.mem_filter.mp hx with ⟨hmem, hid⟩
      exact List.mem_map.mpr ⟨x, hmem, beq_iff_eq.mp hid⟩

theorem nodup_of_filter_le_one (l : List Msg)
    (h : ∀ i, (l.filter (fun m => m.id == i)).length ≤ 1) :
    (l.map (fun m => m.id)).Nodup := by
  induction l with
  | nil => simp
  | cons a t ih =>
    simp only [List.map_cons, List.nodup_cons]
    constructor
    · intro hmem
      rcases List.mem_map.mp hmem with ⟨x, hx, hid⟩
      have h2 := h a.id
      have hxf : x ∈ t.filter (fun m => m.id == a.id) :=
        List.mem_filter.mpr ⟨hx, by simp [hid]⟩
      have hc : List.filter (fun m => m.id == a.id) (a :: t)
          = a :: t.filter (fun m => m.id == a.id) := by
        simp [List.filter_cons]
      rw [hc] at h2
      simp only [List.length_cons] at h2
      have : t.filter (fun m => m.id == a.id) ≠ [] := List.ne_nil_of_mem hxf
      have : 0 < (t.filter (fun m => m.id == a.id)).length := List.length_pos.mpr this
      omega
    · apply ih
      intro i
      have h2 := h i
      have hc : (t.filter (fun m => m.id == i)).length
          ≤ (List.filter (fun m => m.id == i) (a :: t)).length := by
        by_cases ha : (a.id == i) = true
        · simp [List.filter_cons, ha]
        · have ha' : (a.id == i) = false := by simpa using ha
          simp [List.filter_cons, ha']
      omega

/-- The deduplicated output mentions each id exactly once, and exactly the
ids of the input. -/
theorem dedup_ids (msgs : List Msg) :
    ((deduplicateMessages msgs).map (fun m => m.id)).Nodup ∧
      (∀ i, i ∈ (deduplicateMessages msgs).map (fun m => m.id)
        ↔ i ∈ msgs.map (fun m => m.id)) := by
  constructor
  · apply nodup_of_filter_le_one
    intro i
    rw [dedup_filter]
    cases msgs.filter (fun m => m.id == i) <;> simp [keptFor]
  · intro i
    rw [mem_map_id_iff_filter, mem_map_id_iff_filter, dedup_filter]
    cases msgs.filter (fun m => m.id == i) <;> simp [keptFor]

theorem find?_eq_none_of_no_id (acc : List Msg) (i : String)
    (h : ∀ x ∈ acc, x.id ≠ i) : acc.find? (fun m => m.id == i) = none := by
  rw [List.find?_eq_none]
  intro x hx
  simp [h x hx]

/-- On an input whose ids are already distinct the primitive is the
identity. -/
theorem dedup_of_nodup (msgs : List Msg)
    (h : (msgs.map (fun m => m.id)).Nodup) : deduplicateMessages msgs = msgs := by
  suffices hgen : ∀ (rest pre : List Msg) (idx : Nat),
      ((pre ++ rest).map (fun m => m.id)).Nodup →
      dedupGo msgs pre idx rest = pre ++ rest by
    have := hgen msgs [] 0 (by simpa using h)
    simpa [deduplicateMessages] using this
  intro rest
  induction rest with
  | nil => intro pre idx hnd; simp [dedupGo]
  | cons message rest ih =>
    intro pre idx hnd
    simp only [dedupGo]
    have hfind : pre.find? (fun m => m.id == message.id) = none := by
      apply find?_eq_none_of_no_id
      intro x hx hxe
      have hnd' : (pre.map (fun m => m.id)
          ++ (message :: rest).map (fun m => m.id)).Nodup := by
        simpa using hnd
      have hdisj := List.disjoint_of_nodup_append hnd'
      have hxm : x.id ∈ pre.map (fun m => m.id) := List.mem_map.mpr ⟨x, hx, rfl⟩
      have hxm2 : x.id ∈ (message :: rest).map (fun m => m.id) := by
        simp [hxe]
      exact hdisj hxm hxm2
    have hins : dedupInsert msgs idx message pre = pre ++ [message] := by
      simp [dedupInsert, hfind]
    rw [hins]
    have hnd2 : (((pre ++ [message]) ++ rest).map (fun m => m.id)).Nodup := by
      simpa using hnd
    have := ih (pre ++ [message]) (idx + 1) hnd2
    rw [this]
    simp

/-- C1: for every input list and every record in it, the deduplication /
merge primitive keeps exactly one record for that id; the kept record is
one of the occurrences of the id, its content length dominates the content
length of every occurrence, and it is exactly the left fold of the merge
rule along the occurrence list, which replaces the kept record on a
strictly longer incoming one, replaces it on an equal-length later one,
and never replaces it with a shorter one. -/
theorem c1_dedup_keeps_longest (msgs : List Msg) (m : Msg) (hm : m ∈ msgs) :
    ∃ r, (deduplicateMessages msgs).filter (fun x => x.id == m.id) = [r]
      ∧ r ∈ msgs.filter (fun x => x.id == m.id)
      ∧ (∀ d ∈ msgs.filter (fun x => x.id == m.id), d.content.length ≤ r.content.length)
      ∧ (∀ h t, msgs.filter (fun x => x.id == m.id) = h :: t → r = lastMax h t) := by
  have hmf : m ∈ msgs.filter (fun x => x.id == m.id) := List.mem_filter.mpr ⟨hm, by simp⟩
  cases hocc : msgs.filter (fun x => x.id == m.id) with
  | nil =>
    rw [hocc] at hmf
    simp at hmf
  | cons h t =>
    refine ⟨lastMax h t, ?_, ?_, ?_, ?_⟩
    · rw [dedup_filter, hocc]
      rfl
    · exact lastMax_mem t h
    · exact lastMax_le t h
    · intro h' t' he
      injection he with e1 e2
      rw [e1, e2]

/-- Witness for C1 at a concrete input with a duplicate id. -/
theorem c1_dedup_keeps_longest_witness :
    ∃ r, (deduplicateMessages
        [⟨"m", "user", "hi", 0, none, false⟩, ⟨"m", "user", "hello", 1, none, false⟩]).filter
          (fun x => x.id == (Msg.mk "m" "user" "hi" 0 none false).id) = [r]
      ∧ r ∈ ([⟨"m", "user", "hi", 0, none, false⟩,
              ⟨"m", "user", "hello", 1, none, false⟩] : List Msg).filter
          (fun x => x.id == (Msg.mk "m" "user" "hi" 0 none false).id)
      ∧ (∀ d ∈ ([⟨"m", "user", "hi", 0, none, false⟩,
              ⟨"m", "user", "hello", 1, none, false⟩] : List Msg).filter
          (fun x => x.id == (Msg.mk "m" "user" "hi" 0 none false).id),
          d.content.length ≤ r.content.length)
      ∧ (∀ h t, ([⟨"m", "user", "hi", 0, none, false⟩,
              ⟨"m", "user", "hello", 1, none, false⟩] : List Msg).filter
          (fun x => x.id == (Msg.mk "m" "user" "hi" 0 none false).id) = h :: t →
          r = lastMax h t) :=
  c1_dedup_keeps_longest
    [⟨"m", "user", "hi", 0, none, false⟩, ⟨"m", "user", "hello", 1, none, false⟩]
    ⟨"m", "user", "hi", 0, none, false⟩ (by decide)

/-- C3: for every input list, however many duplicate ids it contains, the
deduplicated output mentions each id exactly once, and its ids are exactly
the ids occurring in the input. -/
theorem c3_dedup_unique_ids (msgs : List Msg) :
    ((deduplicateMessages msgs).map (fun m => m.id)).Nodup ∧
      (∀ i, i ∈ (deduplicateMessages msgs).map (fun m => m.id)
        ↔ i ∈ msgs.map (fun m => m.id)) :=
  dedup_ids msgs

/-! ### Stable sort by creation timestamp -/

/-- One insertion step of the stable ascending sort: the element goes after
every already-placed element whose key is less than or equal to its own,
matching JS `Array.prototype.sort` with comparator `aTime - bTime` (stable
since ES2019). -/
def insertByTime (acc : List Msg) (m : Msg) : List Msg :=
  match acc with
  | [] => [m]
  | h :: t => if h.createdAt ≤ m.createdAt then h :: insertByTime t m else m :: h :: t

/-- The stable sort by `createdAt` used by the reconciliation handler. -/
def sortByCreatedAt (l : List Msg) : List Msg :=
  l.foldl insertByTime []

theorem insertByTime_perm (acc : List Msg) (m : Msg) :
    List.Perm (insertByTime acc m) (m :: acc) := by
  induction acc with
  | nil => simp [insertByTime]
  | cons h t ih =>
    simp only [insertByTime]
    by_cases hc : h.createdAt ≤ m.createdAt
    · simp only [if_pos hc]
      exact List.Perm.trans (List.Perm.cons h ih) (List.Perm.swap m h t)
    · simp only [if_neg hc]
      exact List.Perm.refl _

theorem foldl_insertByTime_perm :
    ∀ (l acc : List Msg), List.Perm (l.foldl insertByTime acc) (acc ++ l) := by
  intro l
  induction l with
  | nil => intro acc; simp
  | cons x l ih =>
    intro acc
    simp only [List.foldl_cons]
    have h1 := ih (insertByTime acc x)
    have h2 : List.Perm (insertByTime acc x ++ l) ((x :: acc) ++ l) :=
      (insertByTime_perm acc x).append_right l
    have h3 : List.Perm ((x :: acc) ++ l) (acc ++ x :: l) := by
      simp only [List.cons_append]
      exact List.perm_middle.symm
    exact h1.trans (h2.trans h3)

theorem sortByCreatedAt_perm (l : List Msg) : List.Perm (sortByCreatedAt l) l := by
  have h := foldl_insertByTime_perm l []
  simpa [sortByCreatedAt] using h

theorem insertByTime_of_all_le (acc : List Msg) (m : Msg)
    (h : ∀ a ∈ acc, a.createdAt ≤ m.createdAt) : insertByTime acc m = acc ++ [m] := by
  induction acc with
  | nil => rfl
  | cons a t ih =>
    simp only [insertByTime]
    rw [if_pos (h a (List.mem_cons_self _ _))]
    rw [ih (fun x hx => h x (List.mem_cons_of_mem _ hx))]
    rfl

theorem sortByCreatedAt_of_sorted (l : List Msg)
    (h : l.Pairwise (fun a b => a.createdAt ≤ b.createdAt)) : sortByCreatedAt l = l := by
  suffices hgen : ∀ (l acc : List Msg),
      l.Pairwise (fun a b => a.createdAt ≤ b.createdAt) →
      (∀ a ∈ acc, ∀ b ∈ l, a.createdAt ≤ b.createdAt) →
      l.foldl insertByTime acc = acc ++ l by
    simpa [sortByCreatedAt] using hgen l [] h (by simp)
  intro l
  induction l with
  | nil => intro acc _ _; simp
  | cons x l ih =>
    intro acc hp hle
    simp only [List.foldl_cons]
    rw [insertByTime_of_all_le acc x (fun a ha => hle a ha x (List.mem_cons_self _ _))]
    have hp' := (List.pairwise_cons.mp hp).2
    have hx := (List.pairwise_cons.mp hp).1
    have harg : ∀ a ∈ acc ++ [x], ∀ b ∈ l, a.createdAt ≤ b.createdAt := by
      intro a ha b hb
      rcases List.mem_append.mp ha with h1 | h1
      · exact hle a h1 b (List.mem_cons_of_mem _ hb)
      · simp at h1
        subst h1
        exact hx b hb
    rw [ih (acc ++ [x]) hp' harg]
    simp

/-! ### Id-filter helpers -/

theorem filter_of_nodup_mem :
    ∀ (l : List Msg) (m : Msg), (l.map (fun x => x.id)).Nodup → m ∈ l →
      l.filter (fun x => x.id == m.id) = [m] := by
  intro l
  induction l with
  | nil => intro m _ hm; simp at hm
  | cons a t ih =>
    intro m hnd hm
    simp only [List.map_cons, List.nodup_cons] at hnd
    rcases List.mem_cons.mp hm with h1 | h1
    · subst h1
      have hnil : t.filter (fun x => x.id == m.id) = [] := by
        rw [List.filter_eq_nil_iff]
        intro x hx hbeq
        have hxe : x.id = m.id := beq_iff_eq.mp (by simpa using hbeq)
        exact hnd.1 (List.mem_map.mpr ⟨x, hx, hxe⟩)
      simp [List.filter_cons, hnil]
    · have hne : (a.id == m.id) = false := by
        rw [beq_eq_false_iff_ne]
        intro he
        exact hnd.1 (he ▸ List.mem_map.mpr ⟨m, h1, rfl⟩)
      simp only [List.filter_cons, hne]
      simp only [Bool.false_eq_true, if_false]
      exact ih m hnd.2 h1

theorem filter_map_id_pres (g : Msg → Msg) (hg : ∀ m, (g m).id = m.id) (i : String) :
    ∀ l : List Msg, (l.map g).filter (fun x => x.id == i)
      = (l.filter (fun x => x.id == i)).map g := by
  intro l
  induction l with
  | nil => rfl
  | cons a t ih =>
    simp only [List.map_cons]
    by_cases ha : (a.id == i) = true
    · have hga : ((g a).id == i) = true := by rw [hg]; exact ha
      simp [List.filter_cons, ha, hga, ih]
    · have ha' : (a.id == i) = false := by simpa using ha
      have hga : ((g a).id == i) = false := by rw [hg]; exact ha'
      simp [List.filter_cons, ha', hga, ih]

theorem map_ids_of_id_pres (g : Msg → Msg) (hg : ∀ m, (g m).id = m.id) :
    ∀ l : List Msg, (l.map g).map (fun m => m.id) = l.map (fun m => m.id) := by
  intro l
  induction l with
  | nil => rfl
  | cons a t ih => simp [hg, ih]

/-! ### The durable-store reconciliation handler (`handleMessagesUpdated`) -/

/-- Lookup in the JS `Map` built by `new Map(uiMessages.map(msg => [msg.id,
msg]))`: the last pair for a key wins. -/
def lookupLast (l : List Msg) (i : String) : Option Msg :=
  match l with
  | [] => none
  | m :: rest =>
    match lookupLast rest i with
    | some d => some d
    | none => if m.id == i then some m else none

/-- JS truthiness of the optional `imgurl` field: `undefined` and the empty
string are falsy. -/
def imgTruthy : Option String → Bool
  | none => false
  | some s => decide (s ≠ "")

/-- `currentMsg.content?.includes("Generating your image") ||
currentMsg.isImageGenerationLoading`. -/
def wasLoading (m : Msg) : Bool :=
  strContainsSubstr m.content "Generating your image" || m.isImageGenerationLoading

/-- `dbMsg.imgurl && !dbMsg.content?.includes("Generating your image")`. -/
def nowHasImage (m : Msg) : Bool :=
  imgTruthy m.imgurl && !(strContainsSubstr m.content "Generating your image")

/-- The `messages_updated` handler of `ChatInterface.tsx`: given the thread
this interface renders, the current UI message list, the
`recentlyAppendedMessages` tracked-id set, and the incoming event
`(updatedThreadId, uiMessages)`, return the message list after the handler
and whether `setMessages` fired (the second component). -/
def handleMessagesUpdated (threadId : String) (messages : List Msg)
    (tracked : List String) (updatedThreadId : String) (uiMessages : List Msg) :
    List Msg × Bool :=
  if updatedThreadId == threadId then
    let currentMessageIds := messages.map (fun msg => msg.id)
    let dbMessageIds := uiMessages.map (fun msg => msg.id)
    let hasNewMessages := uiMessages.any (fun dbMsg =>
      !(currentMessageIds.contains dbMsg.id) && !(tracked.contains dbMsg.id))
    let hasMissingMessages := messages.any (fun uiMsg =>
      !(dbMessageIds.contains uiMsg.id) && !(tracked.contains uiMsg.id))
    let hasUpdatedMessages := uiMessages.any (fun dbMsg =>
      match messages.find? (fun msg => msg.id == dbMsg.id) with
      | none => false
      | some currentMsg =>
        (wasLoading currentMsg && nowHasImage dbMsg)
          || !(currentMsg.content == dbMsg.content)
          || !(currentMsg.imgurl == dbMsg.imgurl))
    if hasNewMessages || hasMissingMessages || hasUpdatedMessages then
      if hasUpdatedMessages then
        let updatedMessages := messages.map (fun uiMsg =>
          match lookupLast uiMessages uiMsg.id with
          | some dbMsg => dbMsg
          | none => uiMsg)
        let updatedMessages := updatedMessages ++ uiMessages.filter (fun dbMsg =>
          !(currentMessageIds.contains dbMsg.id) && !(tracked.contains dbMsg.id))
        (deduplicateMessages (sortByCreatedAt updatedMessages), true)
      else
        let mergedMessages := messages ++ uiMessages.filter (fun dbMsg =>
          !(currentMessageIds.contains dbMsg.id) && !(tracked.contains dbMsg.id))
        (deduplicateMessages (sortByCreatedAt mergedMessages), true)
    else
      (messages, false)
  else
    (messages, false)

/-! ### The ephemeral streaming-broadcast handler -/

/-- The payload of a `streaming_broadcast` event as the handler reads it. -/
structure StreamingState where
  messageId : String
  content : String
  isStreaming : Bool
  sessionId : String
deriving DecidableEq, Repr

/-- The `streaming_broadcast` handler of `ChatInterface.tsx`: apply one
broadcast to the current message list.  `now` stands for `new Date()` at
the moment the handler pushes a not-yet-present message. -/
def handleStreamingBroadcast (threadId localSessionId : String) (now : Nat)
    (prevMessages : List Msg) (broadcastThreadId : String)
    (streamingState : StreamingState) : List Msg :=
  if broadcastThreadId == threadId && !(streamingState.sessionId == localSessionId) then
    if streamingState.isStreaming then
      let updatedMessages := prevMessages.map (fun msg =>
        if msg.id == streamingState.messageId then
          { msg with content := streamingState.content }
        else msg)
      let messageExists := prevMessages.any (fun msg => msg.id == streamingState.messageId)
      let updatedMessages :=
        if messageExists then updatedMessages
        else updatedMessages ++
          [⟨streamingState.messageId, "assistant", streamingState.content, now, none, false⟩]
      deduplicateMessages updatedMessages
    else
      prevMessages
  else
    prevMessages

example : handleStreamingBroadcast "t1" "local" 7
    [⟨"m2", "assistant", "", 3, none, false⟩] "t1" ⟨"m2", "Once upon a time", true, "peer"⟩ =
    [⟨"m2", "assistant", "Once upon a time", 3, none, false⟩] := by decide

example : handleStreamingBroadcast "t1" "local" 7
    [⟨"m2", "assistant", "Once upon a time", 3, none, false⟩] "t1"
    ⟨"m2", "Once upon a", true, "peer"⟩ =
    [⟨"m2", "assistant", "Once upon a", 3, none, false⟩] := by decide

example : (handleMessagesUpdated "t1"
    [⟨"m1", "user", "Hello", 1, none, false⟩] [] "t1" []).2 = true := by decide

example : (handleMessagesUpdated "t1"
    [⟨"m1", "user", "Hello", 1, none, false⟩] [] "t1" []).1 =
    [⟨"m1", "user", "Hello", 1, none, false⟩] := by decide

/-- C2 counterexample: the peer broadcasts for message `m2` arrive out of
order, the longer "Once upon a time" first, the stale shorter "Once upon a"
second; the handler shows the longer payload and then reverts the displayed
content to the shorter one, refuting "longer wins, never reverts". -/
theorem c2_counterexample :
    (handleStreamingBroadcast "t1" "local" 7
        [⟨"m2", "assistant", "", 3, none, false⟩] "t1"
        ⟨"m2", "Once upon a time", true, "peer"⟩ =
      [⟨"m2", "assistant", "Once upon a time", 3, none, false⟩])
    ∧ (handleStreamingBroadcast "t1" "local" 7
        [⟨"m2", "assistant", "Once upon a time", 3, none, false⟩] "t1"
        ⟨"m2", "Once upon a", true, "peer"⟩ =
      [⟨"m2", "assistant", "Once upon a", 3, none, false⟩])
    ∧ (("Once upon a" : String) ≠ "Once upon a time") :=
  ⟨by decide, by decide, by decide⟩

/-- C2 (amended): for a peer-session streaming broadcast with
`isStreaming = true` for a message already present in a duplicate-free
list, the displayed content of that message equals the content of the
broadcast that was delivered last — last-delivered-wins, so a stale shorter
payload arriving after a longer one does replace it. -/
theorem c2_last_delivered_wins (threadId localSessionId : String) (now : Nat)
    (prevMessages : List Msg) (st : StreamingState) (m : Msg)
    (hnodup : (prevMessages.map (fun x => x.id)).Nodup)
    (hm : m ∈ prevMessages) (hid : m.id = st.messageId)
    (hstream : st.isStreaming = true)
    (hsess : st.sessionId ≠ localSessionId) :
    ((handleStreamingBroadcast threadId localSessionId now prevMessages threadId st).filter
        (fun x => x.id == st.messageId)).map (fun x => x.content) = [st.content] := by
  have hcond : (threadId == threadId && !(st.sessionId == localSessionId)) = true := by
    simp [hsess]
  have hexists : prevMessages.any (fun msg => msg.id == st.messageId) = true :=
    List.any_eq_true.mpr ⟨m, hm, by simp [hid]⟩
  simp only [handleStreamingBroadcast, hcond, hstream, if_true, hexists]
  have hg : ∀ x : Msg,
      ((fun msg => if msg.id == st.messageId then
        { msg with content := st.content } else msg) x).id = x.id := by
    intro x
    by_cases h : (x.id == st.messageId) = true
    · simp [h]
    · simp only [Bool.not_eq_true] at h
      simp [h]
  have hnodup' : ((prevMessages.map (fun msg =>
      if msg.id == st.messageId then { msg with content := st.content } else msg)).map
        (fun x => x.id)).Nodup := by
    rw [map_ids_of_id_pres _ hg]
    exact hnodup
  rw [dedup_of_nodup _ hnodup']
  rw [filter_map_id_pres _ hg]
  rw [← hid, filter_of_nodup_mem prevMessages m hnodup hm]
  simp [hid]

/-- Witness for the amended C2. -/
theorem c2_last_delivered_wins_witness :
    ((handleStreamingBroadcast "t1" "local" 7
        [⟨"m2", "assistant", "Once upon a time", 3, none, false⟩] "t1"
        ⟨"m2", "Once upon a", true, "peer"⟩).filter
        (fun x => x.id == "m2")).map (fun x => x.content) = ["Once upon a"] :=
  c2_last_delivered_wins "t1" "local" 7
    [⟨"m2", "assistant", "Once upon a time", 3, none, false⟩]
    ⟨"m2", "Once upon a", true, "peer"⟩
    ⟨"m2", "assistant", "Once upon a time", 3, none, false⟩
    (by decide) (by decide) rfl rfl (by decide)

/-- C4: a streaming broadcast whose `sessionId` equals the local session id
is never applied: the local message list after the handler equals the list
before it, whatever the rest of the broadcast says. -/
theorem c4_self_broadcast_suppressed (threadId localSessionId : String) (now : Nat)
    (prevMessages : List Msg) (broadcastThreadId : String) (st : StreamingState)
    (hsess : st.sessionId = localSessionId) :
    handleStreamingBroadcast threadId localSessionId now prevMessages broadcastThreadId st
      = prevMessages := by
  simp [handleStreamingBroadcast, hsess]

/-- Witness for C4. -/
theorem c4_self_broadcast_suppressed_witness :
    handleStreamingBroadcast "t1" "sessA" 0
      [⟨"m1", "user", "Hello", 1, none, false⟩] "t1" ⟨"m1", "xyz", true, "sessA"⟩
      = [⟨"m1", "user", "Hello", 1, none, false⟩] :=
  c4_self_broadcast_suppressed "t1" "sessA" 0
    [⟨"m1", "user", "Hello", 1, none, false⟩] "t1" ⟨"m1", "xyz", true, "sessA"⟩ rfl

/-- C10: a broadcast whose `isStreaming` flag is false leaves the local
message list completely unchanged: the handler applies content only while
`isStreaming` is true. -/
theorem c10_terminal_broadcast_noop (threadId localSessionId : String) (now : Nat)
    (prevMessages : List Msg) (broadcastThreadId : String) (st : StreamingState)
    (hstream : st.isStreaming = false) :
    handleStreamingBroadcast threadId localSessionId now prevMessages broadcastThreadId st
      = prevMessages := by
  by_cases hc : (broadcastThreadId == threadId && !(st.sessionId == localSessionId)) = true
  · simp [handleStreamingBroadcast, hc, hstream]
  · have hc' : (broadcastThreadId == threadId && !(st.sessionId == localSessionId)) = false := by
      simpa using hc
    simp [handleStreamingBroadcast, hc']

/-- Witness for C10. -/
theorem c10_terminal_broadcast_noop_witness :
    handleStreamingBroadcast "t1" "local" 0
      [⟨"m2", "assistant", "abc", 1, none, false⟩] "t1" ⟨"m2", "final text", false, "peer"⟩
      = [⟨"m2", "assistant", "abc", 1, none, false⟩] :=
  c10_terminal_broadcast_noop "t1" "local" 0
    [⟨"m2", "assistant", "abc", 1, none, false⟩] "t1" ⟨"m2", "final text", false, "peer"⟩ rfl

theorem lookupLast_id (i : String) :
    ∀ (l : List Msg) (d : Msg), lookupLast l i = some d → d.id = i := by
  intro l
  induction l with
  | nil => intro d h; simp [lookupLast] at h
  | cons m rest ih =>
    intro d h
    simp only [lookupLast] at h
    cases hrest : lookupLast rest i with
    | some d' =>
      rw [hrest] at h
      injection h with he
      exact he ▸ ih d' hrest
    | none =>
      rw [hrest] at h
      by_cases hm : (m.id == i) = true
      · rw [if_pos hm] at h
        injection h with he
        rw [← he]
        exact beq_iff_eq.mp hm
      · rw [if_neg (by simpa using hm)] at h
        simp at h

theorem lookupLast_of_filter_nil (i : String) :
    ∀ l : List Msg, l.filter (fun x => x.id == i) = [] → lookupLast l i = none := by
  intro l
  induction l with
  | nil => intro _; rfl
  | cons m rest ih =>
    intro h
    have hall := List.filter_eq_nil_iff.mp h
    have hm : (m.id == i) = false := by
      have := hall m (List.mem_cons_self _ _)
      simpa using this
    have hrest : rest.filter (fun x => x.id == i) = [] := by
      rw [List.filter_eq_nil_iff]
      intro x hx
      exact hall x (List.mem_cons_of_mem _ hx)
    simp [lookupLast, ih hrest, hm]

theorem lookupLast_of_filter_singleton (i : String) :
    ∀ (l : List Msg) (d : Msg), l.filter (fun x => x.id == i) = [d] →
      lookupLast l i = some d := by
  intro l
  induction l with
  | nil => intro d h; simp at h
  | cons m rest ih =>
    intro d h
    by_cases hm : (m.id == i) = true
    · have hc : List.filter (fun x => x.id == i) (m :: rest)
          = m :: rest.filter (fun x => x.id == i) := by
        simp [List.filter_cons, hm]
      rw [hc] at h
      injection h with h1 h2
      subst h1
      simp [lookupLast, lookupLast_of_filter_nil i rest h2, hm]
    · have hm' : (m.id == i) = false := by simpa using hm
      have hc : List.filter (fun x => x.id == i) (m :: rest)
          = rest.filter (fun x => x.id == i) := by
        simp [List.filter_cons, hm']
      rw [hc] at h
      simp [lookupLast, ih d h]

/-- After sorting and deduplicating, if every occurrence of an id in a list
carries the same content and the id does occur, the output carries exactly
one record with that id and that content. -/
theorem dedup_sort_filter_all (l : List Msg) (i : String) (c : String)
    (hne : l.filter (fun x => x.id == i) ≠ [])
    (hall : ∀ x ∈ l.filter (fun x => x.id == i), x.content = c) :
    ((deduplicateMessages (sortByCreatedAt l)).filter
        (fun x => x.id == i)).map (fun x => x.content) = [c] := by
  have hperm : List.Perm ((sortByCreatedAt l).filter (fun x => x.id == i))
      (l.filter (fun x => x.id == i)) := (sortByCreatedAt_perm l).filter _
  have hne' : (sortByCreatedAt l).filter (fun x => x.id == i) ≠ [] := by
    intro hnil
    rw [hnil] at hperm
    exact hne hperm.symm.eq_nil
  cases hocc : (sortByCreatedAt l).filter (fun x => x.id == i) with
  | nil => exact absurd hocc hne'
  | cons h t =>
    rw [dedup_filter, hocc]
    have hmem : lastMax h t ∈ (sortByCreatedAt l).filter (fun x => x.id == i) := by
      rw [hocc]
      exact lastMax_mem t h
    have hmem' : lastMax h t ∈ l.filter (fun x => x.id == i) := hperm.mem_iff.mp hmem
    simp [keptFor, hall _ hmem']

/-- The records of `uiMessages` that pass the foreign-append filter never
carry the id of a record already present in `messages`. -/
theorem appended_filter_nil (uiMessages messages : List Msg) (tracked : List String)
    (m1 : Msg) (hm : m1 ∈ messages) :
    (uiMessages.filter (fun dbMsg =>
        !((messages.map (fun msg => msg.id)).contains dbMsg.id)
          && !(tracked.contains dbMsg.id))).filter (fun x => x.id == m1.id) = [] := by
  rw [List.filter_eq_nil_iff]
  intro x hx hbeq
  have hxid : x.id = m1.id := beq_iff_eq.mp (by simpa using hbeq)
  have hq := (List.mem_filter.mp hx).2
  simp only [Bool.and_eq_true, Bool.not_eq_true'] at hq
  obtain ⟨hq1, _⟩ := hq
  have hmem : m1.id ∈ messages.map (fun msg => msg.id) := List.mem_map.mpr ⟨m1, hm, rfl⟩
  have hcontr : (List.map (fun msg => msg.id) messages).contains m1.id = true :=
    List.elem_iff.mpr hmem
  rw [hxid] at hq1
  simp [hcontr] at hq1
  exact hq1 m1 hm rfl

/-- Likewise, records whose id is in the tracked set never pass the
foreign-append filter. -/
theorem appended_filter_nil_tracked (uiMessages messages : List Msg) (tracked : List String)
    (i : String) (ht : i ∈ tracked) :
    (uiMessages.filter (fun dbMsg =>
        !((messages.map (fun msg => msg.id)).contains dbMsg.id)
          && !(tracked.contains dbMsg.id))).filter (fun x => x.id == i) = [] := by
  rw [List.filter_eq_nil_iff]
  intro x hx hbeq
  have hxid : x.id = i := beq_iff_eq.mp (by simpa using hbeq)
  have hq := (List.mem_filter.mp hx).2
  simp only [Bool.and_eq_true, Bool.not_eq_true'] at hq
  obtain ⟨_, hq2⟩ := hq
  have hcontr : tracked.contains i = true := List.elem_iff.mpr ht
  rw [hxid] at hq2
  simp [hcontr] at hq2
  exact hq2 ht

/-- The reconciliation handler returns either the untouched current list,
the image-update merge, or the plain merge. -/
theorem handleMessagesUpdated_cases (threadId : String) (messages : List Msg)
    (tracked : List String) (updatedThreadId : String) (uiMessages : List Msg) :
    (handleMessagesUpdated threadId messages tracked updatedThreadId uiMessages).1 = messages
    ∨ (handleMessagesUpdated threadId messages tracked updatedThreadId uiMessages).1
        = deduplicateMessages (sortByCreatedAt
            ((messages.map (fun uiMsg =>
                match lookupLast uiMessages uiMsg.id with
                | some dbMsg => dbMsg
                | none => uiMsg))
              ++ uiMessages.filter (fun dbMsg =>
                !((messages.map (fun msg => msg.id)).contains dbMsg.id)
                  && !(tracked.contains dbMsg.id))))
    ∨ (handleMessagesUpdated threadId messages tracked updatedThreadId uiMessages).1
        = deduplicateMessages (sortByCreatedAt
            (messages ++ uiMessages.filter (fun dbMsg =>
                !((messages.map (fun msg => msg.id)).contains dbMsg.id)
                  && !(tracked.contains dbMsg.id)))) := by
  simp only [handleMessagesUpdated]
  split
  · split
    · split
      · exact Or.inr (Or.inl rfl)
      · exact Or.inr (Or.inr rfl)
    · exact Or.inl rfl
  · exact Or.inl rfl

theorem dedup_sort_filter_nil (l : List Msg) (i : String)
    (h : l.filter (fun x => x.id == i) = []) :
    (deduplicateMessages (sortByCreatedAt l)).filter (fun x => x.id == i) = [] := by
  rw [dedup_filter]
  have hperm := (sortByCreatedAt_perm l).filter (fun x => x.id == i)
  rw [h] at hperm
  rw [hperm.eq_nil]
  rfl

theorem filter_nil_of_not_mem_ids (l : List Msg) (i : String)
    (h : i ∉ l.map (fun m => m.id)) : l.filter (fun x => x.id == i) = [] := by
  rw [List.filter_eq_nil_iff]
  intro x hx hbeq
  exact h (List.mem_map.mpr ⟨x, hx, beq_iff_eq.mp (by simpa using hbeq)⟩)

/-- C5: a message `m1` the local session already holds (its optimistic
append) is not duplicated when the durable-store echo of the same id with
the same content arrives: the reconciled list keeps exactly one record with
that id, carrying the original content.  Moreover the tracked-id set keeps
an echo of an id that is tracked but not yet in the rendered list from
being appended as a foreign record at all. -/
theorem c5_echo_no_duplicate (tid : String) (current incoming : List Msg)
    (tracked : List String) (m1 d : Msg)
    (hnodup : (current.map (fun m => m.id)).Nodup) :
    ((m1 ∈ current) → incoming.filter (fun x => x.id == m1.id) = [d] →
      d.content = m1.content →
      ((handleMessagesUpdated tid current tracked tid incoming).1.filter
          (fun r => r.id == m1.id)).map (fun r => r.content) = [m1.content])
    ∧ ((m1.id ∉ current.map (fun m => m.id)) → m1.id ∈ tracked →
      (handleMessagesUpdated tid current tracked tid incoming).1.filter
          (fun r => r.id == m1.id) = []) := by
  have hg : ∀ u : Msg,
      ((fun (uiMsg : Msg) => match lookupLast incoming uiMsg.id with
        | some dbMsg => dbMsg
        | none => uiMsg) u).id = u.id := by
    intro u
    cases hl : lookupLast incoming u.id with
    | some dbMsg =>
      simp only [hl]
      exact lookupLast_id u.id incoming dbMsg hl
    | none => simp only [hl]
  constructor
  · intro hm hocc hc
    rcases handleMessagesUpdated_cases tid current tracked tid incoming with h | h | h
    · rw [h, filter_of_nodup_mem current m1 hnodup hm]
      simp
    · rw [h]
      have hfilter : ((current.map (fun (uiMsg : Msg) =>
            match lookupLast incoming uiMsg.id with
            | some dbMsg => dbMsg
            | none => uiMsg))
          ++ incoming.filter (fun (dbMsg : Msg) =>
            !((current.map (fun (msg : Msg) => msg.id)).contains dbMsg.id)
              && !(tracked.contains dbMsg.id))).filter (fun x => x.id == m1.id) = [d] := by
        rw [List.filter_append, filter_map_id_pres _ hg m1.id current,
          filter_of_nodup_mem current m1 hnodup hm,
          appended_filter_nil incoming current tracked m1 hm]
        simp only [List.map_cons, List.map_nil, List.append_nil]
        rw [lookupLast_of_filter_singleton m1.id incoming d hocc]
      apply dedup_sort_filter_all
      · rw [hfilter]
        simp
      · intro x hx
        rw [hfilter] at hx
        simp only [List.mem_singleton] at hx
        rw [hx]
        exact hc
    · rw [h]
      have hfilter : ((current ++ incoming.filter (fun (dbMsg : Msg) =>
            !((current.map (fun (msg : Msg) => msg.id)).contains dbMsg.id)
              && !(tracked.contains dbMsg.id))).filter (fun x => x.id == m1.id)) = [m1] := by
        rw [List.filter_append, filter_of_nodup_mem current m1 hnodup hm,
          appended_filter_nil incoming current tracked m1 hm]
        rfl
      apply dedup_sort_filter_all
      · rw [hfilter]
        simp
      · intro x hx
        rw [hfilter] at hx
        simp only [List.mem_singleton] at hx
        rw [hx]
  · intro hnot htr
    rcases handleMessagesUpdated_cases tid current tracked tid incoming with h | h | h
    · rw [h]
      exact filter_nil_of_not_mem_ids current m1.id hnot
    · rw [h]
      apply dedup_sort_filter_nil
      rw [List.filter_append, filter_map_id_pres _ hg m1.id current,
        filter_nil_of_not_mem_ids current m1.id hnot,
        appended_filter_nil_tracked incoming current tracked m1.id htr]
      rfl
    · rw [h]
      apply dedup_sort_filter_nil
      rw [List.filter_append, filter_nil_of_not_mem_ids current m1.id hnot,
        appended_filter_nil_tracked incoming current tracked m1.id htr]
      rfl

/-- Witness for C5. -/
theorem c5_echo_no_duplicate_witness :
    ((handleMessagesUpdated "t1" [⟨"m1", "user", "Hello", 1, none, false⟩] []
        "t1" [⟨"m1", "user", "Hello", 2, none, false⟩]).1.filter
        (fun r => r.id == "m1")).map (fun r => r.content) = ["Hello"] :=
  (c5_echo_no_duplicate "t1" [⟨"m1", "user", "Hello", 1, none, false⟩]
      [⟨"m1", "user", "Hello", 2, none, false⟩] [] ⟨"m1", "user", "Hello", 1, none, false⟩
      ⟨"m1", "user", "Hello", 2, none, false⟩ (by decide)).1
    (by decide) (by decide) rfl

/-- C8 counterexample: reconciling the current list `[m1]` with an empty
incoming set leaves the list unchanged, yet the handler still fires
`setMessages` (the "thread updated" emission), because `hasMissingMessages`
is true for any untracked current message.  This refutes both "emits no
event" and "an event is emitted only when the merged set differs". -/
theorem c8_counterexample :
    (handleMessagesUpdated "t1" [⟨"m1", "user", "Hello", 1, none, false⟩] [] "t1" []).2 = true
    ∧ (handleMessagesUpdated "t1" [⟨"m1", "user", "Hello", 1, none, false⟩] [] "t1" []).1
        = [⟨"m1", "user", "Hello", 1, none, false⟩] :=
  ⟨by decide, by decide⟩

/-- C8 (amended): for a current list with distinct ids sorted by creation
time, reconciling with an empty incoming set returns the list unchanged,
but the update event fires exactly when some current message id is outside
the tracked set — emission is keyed on the new/missing/updated flags, not
on whether the merged set differs. -/
theorem c8_reconcile_empty_incoming (tid : String) (L : List Msg) (tracked : List String)
    (hnodup : (L.map (fun m => m.id)).Nodup)
    (hsorted : L.Pairwise (fun a b => a.createdAt ≤ b.createdAt)) :
    (handleMessagesUpdated tid L tracked tid []).1 = L
    ∧ ((handleMessagesUpdated tid L tracked tid []).2
        = L.any (fun m => !(tracked.contains m.id))) := by
  cases hany : L.any (fun m => !(tracked.contains m.id)) with
  | true =>
    have hprop : ∃ x ∈ L, x.id ∉ tracked := by simpa using hany
    constructor
    · simp [handleMessagesUpdated, hprop, sortByCreatedAt_of_sorted L hsorted,
        dedup_of_nodup L hnodup]
    · simp [handleMessagesUpdated, hprop, hany]
  | false =>
    have hprop : ∀ x ∈ L, x.id ∈ tracked := by simpa using hany
    have hnex : ¬ ∃ x ∈ L, x.id ∉ tracked := by
      rintro ⟨x, hx, hnx⟩
      exact hnx (hprop x hx)
    constructor <;> simp [handleMessagesUpdated, hany, hnex]

/-- Witness for the amended C8. -/
theorem c8_reconcile_empty_incoming_witness :
    (handleMessagesUpdated "t1" [⟨"m1", "user", "Hello", 1, none, false⟩] ["zz"] "t1" []).1
        = [⟨"m1", "user", "Hello", 1, none, false⟩]
    ∧ ((handleMessagesUpdated "t1" [⟨"m1", "user", "Hello", 1, none, false⟩] ["zz"] "t1" []).2
        = ([⟨"m1", "user", "Hello", 1, none, false⟩] : List Msg).any
            (fun m => !((["zz"] : List String).contains m.id))) :=
  c8_reconcile_empty_incoming "t1" [⟨"m1", "user", "Hello", 1, none, false⟩] ["zz"]
    (by decide) (by decide)

/-! ### The change-notification subscriber (`appwriteRealtime.ts`) -/

/-- The three actions the subscriber can extract from an event envelope. -/
inductive RTAction where
  | create
  | update
  | delete
deriving DecidableEq, Repr

/-- Action extraction of `subscribeToThreads`, `subscribeToMessages` and
`subscribeToProjects`: an if/elif chain of `eventType.includes` substring
checks. -/
def messagesEventAction (eventType : String) : Option RTAction :=
  if strContainsSubstr eventType ".create" then some RTAction.create
  else if strContainsSubstr eventType ".update" then some RTAction.update
  else if strContainsSubstr eventType ".delete" then some RTAction.delete
  else none

/-- Action extraction of `subscribeToMessageSummaries`: a `switch` on the
exact event string, with no default case. -/
def summariesEventAction (eventType : String) : Option RTAction :=
  if eventType == "databases.*.collections.*.documents.*.create" then some RTAction.create
  else if eventType == "databases.*.collections.*.documents.*.update" then some RTAction.update
  else if eventType == "databases.*.collections.*.documents.*.delete" then some RTAction.delete
  else none

/-- An inbound realtime event: `eventType` is `response.events[0]`, the
only element the source reads, and `payload` is `response.payload`, read
through optional chaining. -/
structure RealtimeResponse (P : Type) where
  eventType : String
  payload : Option P

/-- The subscription callback body shared by all four entity kinds: drop
the event unless the payload is present and owned by the scoped user, then
extract the action and pick the matching handler. -/
def subscriberDispatch {P : Type} (getUserId : P → String)
    (matcher : String → Option RTAction) (userId : String)
    (response : RealtimeResponse P) : Option (RTAction × P) :=
  match response.payload with
  | none => none
  | some p =>
    if !(getUserId p == userId) then none
    else
      match matcher response.eventType with
      | some a => some (a, p)
      | none => none

/-- Run one event against an abstract state: a dropped event applies no
handler and leaves the state untouched. -/
def applyRealtime {P σ : Type} (getUserId : P → String)
    (matcher : String → Option RTAction) (userId : String)
    (handlers : RTAction → P → σ → σ) (response : RealtimeResponse P) (s : σ) : σ :=
  match subscriberDispatch getUserId matcher userId response with
  | none => s
  | some (a, p) => handlers a p s

/-- C6: an inbound event whose payload belongs to another user is silently
dropped, for every entity kind (every action matcher): no handler is
selected and any state is left unchanged. -/
theorem c6_user_scope_filter {P σ : Type} (getUserId : P → String)
    (matcher : String → Option RTAction) (userId : String)
    (response : RealtimeResponse P) (p : P)
    (hp : response.payload = some p) (hne : getUserId p ≠ userId) :
    subscriberDispatch getUserId matcher userId response = none
    ∧ ∀ (handlers : RTAction → P → σ → σ) (s : σ),
        applyRealtime getUserId matcher userId handlers response s = s := by
  have hdisp : subscriberDispatch getUserId matcher userId response = none := by
    simp [subscriberDispatch, hp, hne]
  exact ⟨hdisp, fun handlers s => by simp [applyRealtime, hdisp]⟩

/-- Witness for C6: a payload owned by `u2` under scope `u1`. -/
theorem c6_user_scope_filter_witness :
    subscriberDispatch (fun (u : String) => u) messagesEventAction "u1"
        ⟨"databases.db.collections.c.documents.d.create", some "u2"⟩ = none
    ∧ applyRealtime (fun (u : String) => u) messagesEventAction "u1"
        (fun _ _ (n : Nat) => n + 1)
        ⟨"databases.db.collections.c.documents.d.create", some "u2"⟩ 0 = 0 :=
  ⟨(c6_user_scope_filter (σ := Nat) (fun u => u) messagesEventAction "u1"
      ⟨"databases.db.collections.c.documents.d.create", some "u2"⟩ "u2" rfl (by decide)).1,
   (c6_user_scope_filter (fun u => u) messagesEventAction "u1"
      ⟨"databases.db.collections.c.documents.d.create", some "u2"⟩ "u2" rfl (by decide)).2
      (fun _ _ n => n + 1) 0⟩

/-- C9 counterexample: on the concrete envelope variant
`databases.db1.collections.c1.documents.d1.create` the substring-based
matcher of the thread/message/project subscribers extracts `create`, but
the exact-equality `switch` of the message-summary subscriber extracts
nothing: action extraction is not substring matching for every entity
kind. -/
theorem c9_counterexample :
    messagesEventAction "databases.db1.collections.c1.documents.d1.create"
      = some RTAction.create
    ∧ summariesEventAction "databases.db1.collections.c1.documents.d1.create" = none :=
  ⟨by decide, by decide⟩

/-- C9 (amended): threads, messages and projects extract the action by
substring match with create-update-delete priority, ignoring an
unrecognized action entirely; message summaries instead accept only the
three exact wildcard-literal strings.  In every kind at most one handler is
selected per envelope. -/
theorem c9_action_extraction (eventType : String) :
    (strContainsSubstr eventType ".create" = true →
      messagesEventAction eventType = some RTAction.create)
    ∧ (strContainsSubstr eventType ".create" = false →
        strContainsSubstr eventType ".update" = true →
      messagesEventAction eventType = some RTAction.update)
    ∧ (strContainsSubstr eventType ".create" = false →
        strContainsSubstr eventType ".update" = false →
        strContainsSubstr eventType ".delete" = true →
      messagesEventAction eventType = some RTAction.delete)
    ∧ (strContainsSubstr eventType ".create" = false →
        strContainsSubstr eventType ".update" = false →
        strContainsSubstr eventType ".delete" = false →
      messagesEventAction eventType = none)
    ∧ (∀ a, summariesEventAction eventType = some a →
        eventType = "databases.*.collections.*.documents.*.create"
        ∨ eventType = "databases.*.collections.*.documents.*.update"
        ∨ eventType = "databases.*.collections.*.documents.*.delete") := by
  refine ⟨?_, ?_, ?_, ?_, ?_⟩
  · intro h
    simp [messagesEventAction, h]
  · intro h1 h2
    simp [messagesEventAction, h1, h2]
  · intro h1 h2 h3
    simp [messagesEventAction, h1, h2, h3]
  · intro h1 h2 h3
    simp [messagesEventAction, h1, h2, h3]
  · intro a h
    simp only [summariesEventAction] at h
    split at h
    · rename_i hcond
      exact Or.inl (by simpa using hcond)
    · split at h
      · rename_i hcond
        exact Or.inr (Or.inl (by simpa using hcond))
      · split at h
        · rename_i hcond
          exact Or.inr (Or.inr (by simpa using hcond))
        · simp at h

/-- Witness for the amended C9: the create check has priority even when the
envelope also mentions update. -/
theorem c9_action_extraction_witness :
    messagesEventAction "x.create.update" = some RTAction.create :=
  (c9_action_extraction "x.create.update").1 (by decide)

/-! ### The subscription registry -/

/-- The `AppwriteRealtime.subscriptions` map plus a counter of every
underlying `client.subscribe` call ever made; each call hands out the next
handle. -/
structure RegistryState where
  subs : List (String × Nat)
  nextHandle : Nat
deriving DecidableEq, Repr

/-- One per-kind subscribe function (`subscribeToThreads` and its three
siblings): `if (this.subscriptions.has(key)) return;` then
`client.subscribe` and `this.subscriptions.set(key, unsubscribe)`. -/
def subscribeKind (key : String) (st : RegistryState) : RegistryState :=
  if st.subs.any (fun kv => kv.1 == key) then st
  else { subs := st.subs ++ [(key, st.nextHandle)], nextHandle := st.nextHandle + 1 }

/-- `subscribeToAll(userId)`: the four per-kind subscribes in source
order. -/
def subscribeToAll (_userId : String) (st : RegistryState) : RegistryState :=
  subscribeKind "projects"
    (subscribeKind "message_summaries"
      (subscribeKind "messages"
        (subscribeKind "threads" st)))

/-- The registry before any subscription. -/
def emptyRegistry : RegistryState :=
  { subs := [], nextHandle := 0 }

/-- `n` consecutive `subscribeToAll` calls starting from the empty
registry. -/
def subscribeIter (userId : String) : Nat → RegistryState
  | 0 => emptyRegistry
  | n + 1 => subscribeToAll userId (subscribeIter userId n)

theorem subscribeKind_key_present (key : String) (st : RegistryState) :
    ((subscribeKind key st).subs.any (fun kv => kv.1 == key)) = true := by
  cases h : st.subs.any (fun kv => kv.1 == key) with
  | true => simp [subscribeKind, h]
  | false => simp [subscribeKind, h, List.any_append]

theorem subscribeKind_preserves_key (key key' : String) (st : RegistryState)
    (h : st.subs.any (fun kv => kv.1 == key') = true) :
    (subscribeKind key st).subs.any (fun kv => kv.1 == key') = true := by
  cases hc : st.subs.any (fun kv => kv.1 == key) with
  | true => simp [subscribeKind, hc, h]
  | false => simp [subscribeKind, hc, List.any_append, h]

theorem subscribeKind_of_present (key : String) (st : RegistryState)
    (h : st.subs.any (fun kv => kv.1 == key) = true) : subscribeKind key st = st := by
  simp [subscribeKind, h]

theorem subscribeToAll_idem (userId userId' : String) (st : RegistryState) :
    subscribeToAll userId' (subscribeToAll userId st) = subscribeToAll userId st := by
  have ht : (subscribeToAll userId st).subs.any (fun kv => kv.1 == "threads") = true := by
    apply subscribeKind_preserves_key
    apply subscribeKind_preserves_key
    apply subscribeKind_preserves_key
    exact subscribeKind_key_present "threads" st
  have hm : (subscribeToAll userId st).subs.any (fun kv => kv.1 == "messages") = true := by
    apply subscribeKind_preserves_key
    apply subscribeKind_preserves_key
    exact subscribeKind_key_present "messages" _
  have hs : (subscribeToAll userId st).subs.any
      (fun kv => kv.1 == "message_summaries") = true := by
    apply subscribeKind_preserves_key
    exact subscribeKind_key_present "message_summaries" _
  have hp : (subscribeToAll userId st).subs.any (fun kv => kv.1 == "projects") = true :=
    subscribeKind_key_present "projects" _
  show subscribeKind "projects"
    (subscribeKind "message_summaries"
      (subscribeKind "messages"
        (subscribeKind "threads" (subscribeToAll userId st)))) = subscribeToAll userId st
  rw [subscribeKind_of_present "threads" _ ht,
    subscribeKind_of_present "messages" _ hm,
    subscribeKind_of_present "message_summaries" _ hs,
    subscribeKind_of_present "projects" _ hp]

/-- C7: `subscribeAll` is idempotent: after any positive number of
consecutive calls the registry equals the registry after one call, holding
exactly one subscription per entity kind, and exactly four underlying
subscriptions were ever opened; a repeated call from any state is a
no-op. -/
theorem c7_subscribeAll_idempotent (userId : String) (n : Nat) (hn : 0 < n) :
    subscribeIter userId n = subscribeIter userId 1
    ∧ ((subscribeIter userId n).subs.map Prod.fst
        = ["threads", "messages", "message_summaries", "projects"])
    ∧ (subscribeIter userId n).nextHandle = 4
    ∧ (∀ st : RegistryState, subscribeToAll userId (subscribeToAll userId st)
        = subscribeToAll userId st) := by
  have hiter : ∀ m, 0 < m → subscribeIter userId m = subscribeIter userId 1 := by
    intro m hm
    induction m with
    | zero => omega
    | succ k ih =>
      cases Nat.eq_zero_or_pos k with
      | inl h0 =>
        subst h0
        rfl
      | inr hpos =>
        have hk := ih hpos
        show subscribeToAll userId (subscribeIter userId k) = _
        rw [hk]
        exact subscribeToAll_idem userId userId emptyRegistry
  refine ⟨hiter n hn, ?_, ?_, fun st => subscribeToAll_idem userId userId st⟩
  · rw [hiter n hn]
    rfl
  · rw [hiter n hn]
    rfl

/-- Witness for C7 at two consecutive calls. -/
theorem c7_subscribeAll_idempotent_witness :
    subscribeIter "u1" 2 = subscribeIter "u1" 1
    ∧ ((subscribeIter "u1" 2).subs.map Prod.fst
        = ["threads", "messages", "message_summaries", "projects"])
    ∧ (subscribeIter "u1" 2).nextHandle = 4
    ∧ subscribeToAll "u1" (subscribeToAll "u1" emptyRegistry)
        = subscribeToAll "u1" emptyRegistry :=
  ⟨(c7_subscribeAll_idempotent "u1" 2 (by decide)).1,
   (c7_subscribeAll_idempotent "u1" 2 (by decide)).2.1,
   (c7_subscribeAll_idempotent "u1" 2 (by decide)).2.2.1,
   (c7_subscribeAll_idempotent "u1" 2 (by decide)).2.2.2 emptyRegistry⟩
